import Mathlib

/-!
Verification of the on-disk B-tree engine (`src/lib.rs` of the `btree` crate).

The embedding below translates the Rust source into Lean:

* `NodeData<K, V>` becomes a structure holding `keys`, `values`, `children`
  and the `capacity` that Rust stores implicitly as the reserved `Vec`
  capacity (fixed by `Vec::with_capacity` at node creation and used by
  `is_full`/`capacity`/`split`).
* Rust panics (`assert!`, `panic!`, `unwrap()` on `None`, out-of-bounds
  indexing) are modelled by returning `none` from an `Option`-valued
  function; a `some` result is a normal return.
* `PathBuf`-valued `NodeRef`s are modelled as opaque natural numbers.
* `slice::binary_search` (from the Rust standard library) is modelled by
  `bsearch`, a scan returning `.ok i` when `keys[i] = key` and otherwise
  `.error i` with `i` the insertion index; on the sorted, duplicate-free key
  lists the engine maintains this coincides with the documented result of
  `binary_search`.
-/

/-- A `NodeRef` names a node's backing file (Rust: `type NodeRef = PathBuf`);
file identity is all the engine uses, so it is embedded as a natural number. -/
abbrev NodeRef := Nat

/-- Model of `slice::binary_search(&key)` over the node's keys: `.ok i` when
the key is found at index `i`, `.error i` with the insertion index otherwise.
On strictly sorted lists this is exactly the Rust contract. -/
def bsearch {K : Type} [LinearOrder K] : List K → K → Except Nat Nat
  | [], _ => .error 0
  | x :: xs, k =>
    if x < k then
      match bsearch xs k with
      | .ok i => .ok (i + 1)
      | .error i => .error (i + 1)
    else if x = k then .ok 0
    else .error 0

/-- Embeds the Rust struct `NodeData<K, V>`: ordered keys, parallel values,
optional child references, plus the key-capacity reserved at creation time
(Rust keeps it as the `Vec` capacity requested in `NodeData::new`). -/
structure NodeData (K V : Type) where
  keys : List K
  values : List V
  children : Option (List NodeRef)
  capacity : Nat
deriving DecidableEq, Repr

namespace NodeData

variable {K V : Type} [LinearOrder K]

/-- Embeds `NodeData::new(capacity)`: `assert!(capacity % 2 == 1 && capacity > 3)`
then empty keys/values and no children. The failed assertion (a panic) is the
`none` result. -/
def new (capacity : Nat) : Option (NodeData K V) :=
  if capacity % 2 = 1 ∧ 3 < capacity then
    some { keys := [], values := [], children := none, capacity := capacity }
  else none

/-- Embeds `NodeData::is_leaf`. -/
def is_leaf (nd : NodeData K V) : Bool :=
  nd.children.isNone

/-- Embeds `NodeData::is_full`: `keys.len() == keys.capacity()`. -/
def is_full (nd : NodeData K V) : Bool :=
  nd.keys.length == nd.capacity

/-- Embeds `NodeData::insert`: binary-search the key; on a hit swap the new
value in and return the old one; on a miss insert key and value at the
reported position if the node is not full, and panic (`none`) otherwise. -/
def insert (nd : NodeData K V) (key : K) (value : V) :
    Option (Option V × NodeData K V) :=
  match bsearch nd.keys key with
  | .ok idx =>
    match nd.values[idx]? with
    | some old => some (some old, { nd with values := nd.values.set idx value })
    | none => none
  | .error idx =>
    if nd.is_full then none
    else some (none, { nd with keys := nd.keys.insertIdx idx key,
                               values := nd.values.insertIdx idx value })

/-- Embeds `NodeData::split`: `assert!(is_full())`, split point
`capacity / 2 + 1`; keys/values/children from the split point onward are
moved (`split_off`) into a sibling freshly made by `NodeData::new(capacity)`,
then the last remaining key/value pair is popped and returned. The result is
`(popped key, popped value, mutated self, sibling)`; `none` is a panic. -/
def split (nd : NodeData K V) : Option (K × V × NodeData K V × NodeData K V) :=
  if nd.is_full then
    let splitIdx := nd.capacity / 2 + 1
    let keptKeys := nd.keys.take splitIdx
    let keptValues := nd.values.take splitIdx
    match (NodeData.new nd.capacity : Option (NodeData K V)) with
    | none => none
    | some fresh =>
      let other : NodeData K V :=
        { fresh with keys := nd.keys.drop splitIdx,
                     values := nd.values.drop splitIdx,
                     children := nd.children.map (fun (c : List NodeRef) => c.drop splitIdx) }
      match keptKeys.getLast?, keptValues.getLast? with
      | some k, some v =>
        some (k, v,
          { nd with keys := keptKeys.dropLast,
                    values := keptValues.dropLast,
                    children := nd.children.map (fun (c : List NodeRef) => c.take splitIdx) },
          other)
      | _, _ => none
  else none

/-- Semantic lookup used to phrase "the value stored for a key": the value at
the key's binary-search position, if the key is present. (Observation
function for statements; the source has no standalone lookup yet.) -/
def getValue (nd : NodeData K V) (key : K) : Option V :=
  match bsearch nd.keys key with
  | .ok i => nd.values[i]?
  | .error _ => none

end NodeData

section BsearchLemmas

variable {K : Type} [LinearOrder K]

/-- A hit reported by `bsearch` really is the key's position. -/
theorem bsearch_ok_get {l : List K} {k : K} {i : Nat}
    (h : bsearch l k = .ok i) : l[i]? = some k := by
  induction l generalizing i with
  | nil => simp [bsearch] at h
  | cons x xs ih =>
    by_cases hx : x < k
    · rw [bsearch, if_pos hx] at h
      cases hb : bsearch xs k with
      | ok j =>
        rw [hb] at h
        simp only [Except.ok.injEq] at h
        subst h
        simpa using ih hb
      | error j => rw [hb] at h; exact absurd h (by simp)
    · rw [bsearch, if_neg hx] at h
      by_cases he : x = k
      · rw [if_pos he] at h
        simp only [Except.ok.injEq] at h
        subst h
        simp [he]
      · rw [if_neg he] at h; exact absurd h (by simp)

/-- The insertion index reported by `bsearch` never exceeds the length. -/
theorem bsearch_err_le {l : List K} {k : K} {i : Nat}
    (h : bsearch l k = .error i) : i ≤ l.length := by
  induction l generalizing i with
  | nil => simp [bsearch] at h; omega
  | cons x xs ih =>
    by_cases hx : x < k
    · rw [bsearch, if_pos hx] at h
      cases hb : bsearch xs k with
      | ok j => rw [hb] at h; exact absurd h (by simp)
      | error j =>
        rw [hb] at h
        simp only [Except.error.injEq] at h
        subst h
        simpa using ih hb
    · rw [bsearch, if_neg hx] at h
      by_cases he : x = k
      · rw [if_pos he] at h; exact absurd h (by simp)
      · rw [if_neg he] at h
        simp only [Except.error.injEq] at h
        omega

/-- A key that is absent is always reported as a miss. -/
theorem bsearch_of_not_mem {l : List K} {k : K} (h : k ∉ l) :
    ∃ i, bsearch l k = .error i := by
  cases hb : bsearch l k with
  | ok i => exact absurd (List.getElem?_mem (bsearch_ok_get hb)) h
  | error i => exact ⟨i, rfl⟩

/-- On a sorted key list, a present key is always found. -/
theorem bsearch_ok_of_mem {l : List K} {k : K}
    (hs : l.Sorted (· < ·)) (h : k ∈ l) : ∃ i, bsearch l k = .ok i := by
  induction l with
  | nil => simp at h
  | cons x xs ih =>
    rcases List.sorted_cons.mp hs with ⟨hall, hxs⟩
    by_cases hx : x < k
    · have hk : k ∈ xs := by
        rcases List.mem_cons.mp h with rfl | hm
        · exact absurd hx (lt_irrefl k)
        · exact hm
      obtain ⟨j, hj⟩ := ih hxs hk
      exact ⟨j + 1, by rw [bsearch, if_pos hx, hj]⟩
    · by_cases he : x = k
      · exact ⟨0, by rw [bsearch, if_neg hx, if_pos he]⟩
      · exfalso
        rcases List.mem_cons.mp h with rfl | hm
        · exact he rfl
        · exact hx (hall k hm)

/-- Inserting at the miss index reported by `bsearch` keeps the key list
strictly sorted. -/
theorem bsearch_err_insert_sorted {l : List K} {k : K} {i : Nat}
    (hs : l.Sorted (· < ·)) (h : bsearch l k = .error i) :
    (l.insertIdx i k).Sorted (· < ·) := by
  induction l generalizing i with
  | nil =>
    simp only [bsearch, Except.error.injEq] at h
    subst h
    simp
  | cons x xs ih =>
    rcases List.sorted_cons.mp hs with ⟨hall, hxs⟩
    by_cases hx : x < k
    · rw [bsearch, if_pos hx] at h
      cases hb : bsearch xs k with
      | ok j => rw [hb] at h; exact absurd h (by simp)
      | error j =>
        rw [hb] at h
        simp only [Except.error.injEq] at h
        subst h
        rw [List.insertIdx_succ_cons]
        refine List.sorted_cons.mpr ⟨?_, ih hxs hb⟩
        intro b hb2
        rcases (List.mem_insertIdx (bsearch_err_le hb)).mp hb2 with rfl | hm
        · exact hx
        · exact hall b hm
    · rw [bsearch, if_neg hx] at h
      by_cases he : x = k
      · rw [if_pos he] at h; exact absurd h (by simp)
      · rw [if_neg he] at h
        simp only [Except.error.injEq] at h
        subst h
        rw [List.insertIdx_zero]
        refine List.sorted_cons.mpr ⟨?_, hs⟩
        intro b hb2
        have hkx : k < x := lt_of_le_of_ne (not_lt.mp hx) (fun hkx => he hkx.symm)
        rcases List.mem_cons.mp hb2 with rfl | hm
        · exact hkx
        · exact hkx.trans (hall b hm)

/-- After inserting at the miss index, `bsearch` finds the key there. -/
theorem bsearch_insertIdx_self {l : List K} {k : K} {i : Nat}
    (h : bsearch l k = .error i) : bsearch (l.insertIdx i k) k = .ok i := by
  induction l generalizing i with
  | nil =>
    simp only [bsearch, Except.error.injEq] at h
    subst h
    simp [bsearch]
  | cons x xs ih =>
    by_cases hx : x < k
    · rw [bsearch, if_pos hx] at h
      cases hb : bsearch xs k with
      | ok j => rw [hb] at h; exact absurd h (by simp)
      | error j =>
        rw [hb] at h
        simp only [Except.error.injEq] at h
        subst h
        rw [List.insertIdx_succ_cons, bsearch, if_pos hx, ih hb]
    · rw [bsearch, if_neg hx] at h
      by_cases he : x = k
      · rw [if_pos he] at h; exact absurd h (by simp)
      · rw [if_neg he] at h
        simp only [Except.error.injEq] at h
        subst h
        rw [List.insertIdx_zero, bsearch, if_neg (lt_irrefl k), if_pos rfl]

end BsearchLemmas

/-- The element freshly placed at position `i` by `insertIdx` is found there. -/
theorem getElem?_insertIdx_self {α : Type} {l : List α} {a : α} {i : Nat}
    (h : i ≤ l.length) : (l.insertIdx i a)[i]? = some a := by
  induction l generalizing i with
  | nil =>
    have : i = 0 := Nat.le_zero.mp h
    subst this
    simp
  | cons x xs ih =>
    cases i with
    | zero => simp
    | succ n =>
      rw [List.insertIdx_succ_cons]
      simpa using ih (by simpa using h)

namespace NodeData

variable {K V : Type} [LinearOrder K]

/-- A well-formed node: strictly sorted keys and parallel values. -/
def WellFormed (nd : NodeData K V) : Prop :=
  nd.keys.Sorted (· < ·) ∧ nd.values.length = nd.keys.length

omit [LinearOrder K] in
/-- Unfolds `NodeData.split` on a full, well-formed node of valid capacity:
the sibling takes everything from index `capacity / 2 + 1` on, the original
keeps the strict prefix before the popped median at index `capacity / 2`. -/
theorem split_eq (nd : NodeData K V)
    (hodd : nd.capacity % 2 = 1) (hgt : 3 < nd.capacity)
    (hfull : nd.keys.length = nd.capacity)
    (hlen : nd.values.length = nd.keys.length) :
    ∃ mk mv,
      nd.keys[nd.capacity / 2]? = some mk ∧
      nd.values[nd.capacity / 2]? = some mv ∧
      nd.split = some (mk, mv,
        { keys := nd.keys.take (nd.capacity / 2),
          values := nd.values.take (nd.capacity / 2),
          children := nd.children.map (fun (c : List NodeRef) => c.take (nd.capacity / 2 + 1)),
          capacity := nd.capacity },
        { keys := nd.keys.drop (nd.capacity / 2 + 1),
          values := nd.values.drop (nd.capacity / 2 + 1),
          children := nd.children.map (fun (c : List NodeRef) => c.drop (nd.capacity / 2 + 1)),
          capacity := nd.capacity }) := by
  have hmk' : nd.capacity / 2 < nd.keys.length := by omega
  have hmv' : nd.capacity / 2 < nd.values.length := by omega
  obtain ⟨mk, hmk⟩ : ∃ mk, nd.keys[nd.capacity / 2]? = some mk := by
    cases hq : nd.keys[nd.capacity / 2]? with
    | some mk => exact ⟨mk, rfl⟩
    | none =>
      exfalso
      have := List.getElem?_eq_none_iff.mp hq
      omega
  obtain ⟨mv, hmv⟩ : ∃ mv, nd.values[nd.capacity / 2]? = some mv := by
    cases hq : nd.values[nd.capacity / 2]? with
    | some mv => exact ⟨mv, rfl⟩
    | none =>
      exfalso
      have := List.getElem?_eq_none_iff.mp hq
      omega
  refine ⟨mk, mv, hmk, hmv, ?_⟩
  have hful : nd.is_full = true := by simp [NodeData.is_full, hfull]
  have hnew : (NodeData.new nd.capacity : Option (NodeData K V)) =
      some { keys := [], values := [], children := none, capacity := nd.capacity } := by
    simp [NodeData.new, hodd, hgt]
  have htk : nd.keys.take (nd.capacity / 2 + 1) = nd.keys.take (nd.capacity / 2) ++ [mk] := by
    rw [List.take_succ, hmk]
    rfl
  have htv : nd.values.take (nd.capacity / 2 + 1)
      = nd.values.take (nd.capacity / 2) ++ [mv] := by
    rw [List.take_succ, hmv]
    rfl
  rw [NodeData.split, if_pos hful, hnew]
  simp only [htk, htv, List.getLast?_concat, List.dropLast_concat]

/-- `NodeData.insert` preserves well-formedness. -/
theorem insert_wf {nd : NodeData K V} {k : K} {v : V} {old : Option V}
    {nd' : NodeData K V} (h : nd.WellFormed)
    (he : nd.insert k v = some (old, nd')) : nd'.WellFormed := by
  obtain ⟨hs, hlen⟩ := h
  cases hb : bsearch nd.keys k with
  | ok idx =>
    cases hv : nd.values[idx]? with
    | some o =>
      simp only [NodeData.insert, hb, hv, Option.some.injEq, Prod.mk.injEq] at he
      obtain ⟨-, he2⟩ := he
      subst he2
      exact ⟨hs, by simpa using hlen⟩
    | none => simp [NodeData.insert, hb, hv] at he
  | error idx =>
    by_cases hful : nd.is_full = true
    · simp [NodeData.insert, hb, hful] at he
    · simp only [NodeData.insert, hb, hful, Bool.false_eq_true, if_false,
        Option.some.injEq, Prod.mk.injEq] at he
      obtain ⟨-, he2⟩ := he
      subst he2
      have hle : idx ≤ nd.keys.length := bsearch_err_le hb
      refine ⟨bsearch_err_insert_sorted hs hb, ?_⟩
      show (nd.values.insertIdx idx v).length = (nd.keys.insertIdx idx k).length
      rw [List.length_insertIdx _ _ (by omega), List.length_insertIdx _ _ hle, hlen]

omit [LinearOrder K] in
/-- Inverts a successful `NodeData.split`: the node was full, the original
keeps the prefix before the split point minus the popped pair, the sibling
holds the suffix from the split point on. -/
theorem split_shape {nd : NodeData K V} {k : K} {v : V}
    {left right : NodeData K V}
    (he : nd.split = some (k, v, left, right)) :
    nd.keys.length = nd.capacity ∧
    left.keys = (nd.keys.take (nd.capacity / 2 + 1)).dropLast ∧
    left.values = (nd.values.take (nd.capacity / 2 + 1)).dropLast ∧
    right.keys = nd.keys.drop (nd.capacity / 2 + 1) ∧
    right.values = nd.values.drop (nd.capacity / 2 + 1) := by
  by_cases hful : nd.is_full = true
  · have hlen : nd.keys.length = nd.capacity := by
      have := hful
      simp only [NodeData.is_full, beq_iff_eq] at this
      exact this
    cases hn : (NodeData.new nd.capacity : Option (NodeData K V)) with
    | none => simp [NodeData.split, hful, hn] at he
    | some fresh =>
      cases hgk : (nd.keys.take (nd.capacity / 2 + 1)).getLast? with
      | none => simp [NodeData.split, hful, hn, hgk] at he
      | some mk =>
        cases hgv : (nd.values.take (nd.capacity / 2 + 1)).getLast? with
        | none => simp [NodeData.split, hful, hn, hgk, hgv] at he
        | some mv =>
          simp only [NodeData.split, hful, if_true, hn, hgk, hgv,
            Option.some.injEq, Prod.mk.injEq] at he
          obtain ⟨-, -, hl, hr⟩ := he
          subst hl
          subst hr
          exact ⟨hlen, rfl, rfl, rfl, rfl⟩
  · simp [NodeData.split, hful] at he

/-- `NodeData.split` preserves well-formedness of both halves. -/
theorem split_wf {nd : NodeData K V} {k : K} {v : V}
    {left right : NodeData K V} (h : nd.WellFormed)
    (he : nd.split = some (k, v, left, right)) :
    left.WellFormed ∧ right.WellFormed := by
  obtain ⟨hs, hlen⟩ := h
  obtain ⟨-, hlk, hlv, hrk, hrv⟩ := split_shape he
  refine ⟨⟨?_, ?_⟩, ⟨?_, ?_⟩⟩
  · rw [hlk]
    exact List.Pairwise.sublist
      ((List.dropLast_sublist _).trans (List.take_sublist _ _)) hs
  · rw [hlv, hlk, List.length_dropLast, List.length_dropLast,
      List.length_take, List.length_take, hlen]
  · rw [hrk]
    exact List.Pairwise.sublist (List.drop_sublist _ _) hs
  · rw [hrv, hrk, List.length_drop, List.length_drop, hlen]

end NodeData

/-- The states a `NodeData` can be in over any sequence of the operations
`new`, `insert` and `split` (either half of a split). -/
inductive Reachable {K V : Type} [LinearOrder K] : NodeData K V → Prop where
  | new (capacity : Nat) (nd : NodeData K V) :
      NodeData.new capacity = some nd → Reachable nd
  | insert (nd : NodeData K V) (k : K) (v : V) (old : Option V)
      (nd' : NodeData K V) :
      Reachable nd → nd.insert k v = some (old, nd') → Reachable nd'
  | splitLeft (nd : NodeData K V) (k : K) (v : V) (left right : NodeData K V) :
      Reachable nd → nd.split = some (k, v, left, right) → Reachable left
  | splitRight (nd : NodeData K V) (k : K) (v : V) (left right : NodeData K V) :
      Reachable nd → nd.split = some (k, v, left, right) → Reachable right

/-- C3: across every sequence of `NodeData` operations (`new`, `insert`,
`split`), every node's key sequence stays strictly increasing (hence without
duplicates) and the value list always has exactly as many entries as the key
list. -/
theorem nodedata_invariant {K V : Type} [LinearOrder K] (nd : NodeData K V)
    (h : Reachable nd) :
    nd.keys.Sorted (· < ·) ∧ nd.keys.Nodup ∧
      nd.values.length = nd.keys.length := by
  have hwf : nd.WellFormed := by
    induction h with
    | new capacity nd hn =>
      unfold NodeData.new at hn
      by_cases hc : capacity % 2 = 1 ∧ 3 < capacity
      · rw [if_pos hc] at hn
        cases hn
        exact ⟨List.sorted_nil, rfl⟩
      · rw [if_neg hc] at hn
        exact absurd hn (by simp)
    | insert nd k v old nd' _ he ih => exact NodeData.insert_wf ih he
    | splitLeft nd k v left right _ he ih => exact (NodeData.split_wf ih he).1
    | splitRight nd k v left right _ he ih => exact (NodeData.split_wf ih he).2
  exact ⟨hwf.1, hwf.1.nodup, hwf.2⟩

/-- C3 witness: a concrete reachable node (two out-of-order inserts into a
fresh capacity-5 node) satisfies the invariant. -/
theorem nodedata_invariant_witness :
    (NodeData.mk [1, 2] [10, 20] none 5 : NodeData Int Int).keys.Sorted (· < ·) ∧
    (NodeData.mk [1, 2] [10, 20] none 5 : NodeData Int Int).keys.Nodup ∧
    (NodeData.mk [1, 2] [10, 20] none 5 : NodeData Int Int).values.length =
      (NodeData.mk [1, 2] [10, 20] none 5 : NodeData Int Int).keys.length :=
  nodedata_invariant _
    (Reachable.insert (NodeData.mk [2] [20] none 5) 1 10 none
      (NodeData.mk [1, 2] [10, 20] none 5)
      (Reachable.insert (NodeData.mk [] [] none 5) 2 20 none
        (NodeData.mk [2] [20] none 5)
        (Reachable.new 5 (NodeData.mk [] [] none 5) (by decide))
        (by decide))
      (by decide))

/-- C2: splitting a full `NodeData` of odd capacity `C` (valid capacities are
odd and greater than 3) moves keys/values/children from index `C / 2 + 1`
onward into a sibling of the same capacity, pops the key/value immediately
before that split point as the promoted median, and leaves key counts
`(C - 1) / 2` and `C / 2`, summing to `C - 1`. -/
theorem nodedata_split_sizes {K V : Type} [LinearOrder K] (nd : NodeData K V)
    (hodd : nd.capacity % 2 = 1) (hgt : 3 < nd.capacity)
    (hfull : nd.keys.length = nd.capacity)
    (hlen : nd.values.length = nd.keys.length) :
    ∃ mk mv left right,
      nd.split = some (mk, mv, left, right) ∧
      nd.keys[nd.capacity / 2]? = some mk ∧
      nd.values[nd.capacity / 2]? = some mv ∧
      right.keys = nd.keys.drop (nd.capacity / 2 + 1) ∧
      right.values = nd.values.drop (nd.capacity / 2 + 1) ∧
      right.children = nd.children.map
        (fun (c : List NodeRef) => c.drop (nd.capacity / 2 + 1)) ∧
      right.capacity = nd.capacity ∧
      left.keys = nd.keys.take (nd.capacity / 2) ∧
      left.keys.length = (nd.capacity - 1) / 2 ∧
      right.keys.length = nd.capacity / 2 ∧
      left.keys.length + right.keys.length = nd.capacity - 1 := by
  obtain ⟨mk, mv, hmk, hmv, he⟩ := NodeData.split_eq nd hodd hgt hfull hlen
  refine ⟨mk, mv, _, _, he, hmk, hmv, rfl, rfl, rfl, rfl, rfl, ?_, ?_, ?_⟩
  · simp only [List.length_take]
    omega
  · simp only [List.length_drop]
    omega
  · simp only [List.length_take, List.length_drop]
    omega

/-- C2 witness: the concrete full capacity-5 node splits into halves of
sizes 2 and 2 with median key 3. -/
theorem nodedata_split_sizes_witness :
    ∃ mk mv left right,
      (NodeData.mk [1, 2, 3, 4, 5] [10, 20, 30, 40, 50] none 5 :
        NodeData Int Int).split = some (mk, mv, left, right) ∧
      (NodeData.mk [1, 2, 3, 4, 5] [10, 20, 30, 40, 50] none 5 :
        NodeData Int Int).keys[(5 : Nat) / 2]? = some mk ∧
      (NodeData.mk [1, 2, 3, 4, 5] [10, 20, 30, 40, 50] none 5 :
        NodeData Int Int).values[(5 : Nat) / 2]? = some mv ∧
      right.keys = ([1, 2, 3, 4, 5] : List Int).drop ((5 : Nat) / 2 + 1) ∧
      right.values = ([10, 20, 30, 40, 50] : List Int).drop ((5 : Nat) / 2 + 1) ∧
      right.children = (none : Option (List NodeRef)).map
        (fun (c : List NodeRef) => c.drop ((5 : Nat) / 2 + 1)) ∧
      right.capacity = 5 ∧
      left.keys = ([1, 2, 3, 4, 5] : List Int).take ((5 : Nat) / 2) ∧
      left.keys.length = ((5 : Nat) - 1) / 2 ∧
      right.keys.length = (5 : Nat) / 2 ∧
      left.keys.length + right.keys.length = (5 : Nat) - 1 :=
  nodedata_split_sizes (NodeData.mk [1, 2, 3, 4, 5] [10, 20, 30, 40, 50] none 5)
    (by decide) (by decide) (by decide) (by decide)

/-- C10: on a full, strictly sorted node, the promoted median is strictly
above every key the original keeps and strictly below every key the sibling
receives; together the kept keys, the median and the moved keys are exactly
the original key list in order, so no key is lost. -/
theorem nodedata_split_partitions {K V : Type} [LinearOrder K]
    (nd : NodeData K V)
    (hodd : nd.capacity % 2 = 1) (hgt : 3 < nd.capacity)
    (hfull : nd.keys.length = nd.capacity)
    (hlen : nd.values.length = nd.keys.length)
    (hs : nd.keys.Sorted (· < ·)) :
    ∃ mk mv left right,
      nd.split = some (mk, mv, left, right) ∧
      (∀ a ∈ left.keys, a < mk) ∧
      (∀ b ∈ right.keys, mk < b) ∧
      left.keys ++ mk :: right.keys = nd.keys := by
  obtain ⟨mk, mv, hmk, hmv, he⟩ := NodeData.split_eq nd hodd hgt hfull hlen
  have hmlt : nd.capacity / 2 < nd.keys.length := by omega
  have hdrop : nd.keys.drop (nd.capacity / 2)
      = mk :: nd.keys.drop (nd.capacity / 2 + 1) := by
    rw [List.drop_eq_getElem_cons hmlt]
    have h2 := List.getElem?_eq_getElem hmlt
    rw [hmk] at h2
    rw [Option.some.inj h2]
  have hid : nd.keys.take (nd.capacity / 2) ++ mk :: nd.keys.drop (nd.capacity / 2 + 1)
      = nd.keys := by
    rw [← hdrop, List.take_append_drop]
  have hp : List.Pairwise (· < ·)
      (nd.keys.take (nd.capacity / 2) ++ mk :: nd.keys.drop (nd.capacity / 2 + 1)) := by
    rw [hid]
    exact hs
  rcases List.pairwise_append.mp hp with ⟨-, hp2, hcross⟩
  refine ⟨mk, mv, _, _, he, ?_, ?_, ?_⟩
  · intro a ha
    simp only at ha
    exact hcross a ha mk (List.mem_cons_self _ _)
  · intro b hb
    simp only at hb
    exact (List.pairwise_cons.mp hp2).1 b hb
  · exact hid

/-- C10 witness: the concrete full sorted capacity-5 node partitions around
its median. -/
theorem nodedata_split_partitions_witness :
    ∃ mk mv left right,
      (NodeData.mk [1, 2, 3, 4, 5] [10, 20, 30, 40, 50] none 5 :
        NodeData Int Int).split = some (mk, mv, left, right) ∧
      (∀ a ∈ left.keys, a < mk) ∧
      (∀ b ∈ right.keys, mk < b) ∧
      left.keys ++ mk :: right.keys =
        (NodeData.mk [1, 2, 3, 4, 5] [10, 20, 30, 40, 50] none 5 :
          NodeData Int Int).keys :=
  nodedata_split_partitions
    (NodeData.mk [1, 2, 3, 4, 5] [10, 20, 30, 40, 50] none 5)
    (by decide) (by decide) (by decide) (by decide) (by decide)

namespace NodeData

variable {K V : Type} [LinearOrder K]

/-- A `bsearch` hit makes `NodeData.insert` swap the value at that index and
return the old one. -/
theorem insert_hit {nd : NodeData K V} {k : K} {i : Nat} (v : V)
    (hlen : nd.values.length = nd.keys.length)
    (hb : bsearch nd.keys k = .ok i) :
    ∃ old, nd.values[i]? = some old ∧
      nd.insert k v = some (some old, { nd with values := nd.values.set i v }) := by
  have hki := bsearch_ok_get hb
  have hilt : i < nd.keys.length := by
    rcases Nat.lt_or_ge i nd.keys.length with h | h
    · exact h
    · rw [List.getElem?_eq_none_iff.mpr h] at hki
      exact absurd hki (by simp)
  cases hv : nd.values[i]? with
  | none =>
    exfalso
    have := List.getElem?_eq_none_iff.mp hv
    omega
  | some old => exact ⟨old, rfl, by simp only [NodeData.insert, hb, hv]⟩

/-- A `bsearch` miss on a non-full node makes `NodeData.insert` insert both
key and value at the reported index. -/
theorem insert_miss {nd : NodeData K V} {k : K} {i : Nat} (v : V)
    (hroom : nd.keys.length ≠ nd.capacity)
    (hb : bsearch nd.keys k = .error i) :
    nd.insert k v = some (none,
      { nd with keys := nd.keys.insertIdx i k,
                values := nd.values.insertIdx i v }) := by
  have hful : ¬nd.is_full = true := by
    simp only [NodeData.is_full, beq_iff_eq]
    exact hroom
  simp only [NodeData.insert, hb]
  rw [if_neg hful]

end NodeData

/-- C4: on a node with room, `insert` replaces and returns the old value when
the key exists, otherwise inserts at the binary-search position and returns
none; inserting the same key twice therefore returns none then the first
value, and leaves only the second value stored. -/
theorem nodedata_insert_semantics {K V : Type} [LinearOrder K]
    (nd : NodeData K V) (k : K)
    (hs : nd.keys.Sorted (· < ·)) (hlen : nd.values.length = nd.keys.length)
    (hroom : nd.keys.length < nd.capacity) :
    (∀ v, k ∈ nd.keys → ∃ i old, nd.keys[i]? = some k ∧
        nd.values[i]? = some old ∧
        nd.insert k v = some (some old, { nd with values := nd.values.set i v })) ∧
    (∀ v, k ∉ nd.keys → ∃ i, bsearch nd.keys k = .error i ∧
        nd.insert k v = some (none,
          { nd with keys := nd.keys.insertIdx i k,
                    values := nd.values.insertIdx i v })) ∧
    (∀ v₁ v₂, k ∉ nd.keys → ∃ nd₁ nd₂,
        nd.insert k v₁ = some (none, nd₁) ∧ nd₁.getValue k = some v₁ ∧
        nd₁.insert k v₂ = some (some v₁, nd₂) ∧
        nd₂.getValue k = some v₂ ∧ nd₂.keys = nd₁.keys) := by
  refine ⟨?_, ?_, ?_⟩
  · intro v hk
    obtain ⟨i, hb⟩ := bsearch_ok_of_mem hs hk
    obtain ⟨old, hv, he⟩ := NodeData.insert_hit v hlen hb
    exact ⟨i, old, bsearch_ok_get hb, hv, he⟩
  · intro v hk
    obtain ⟨i, hb⟩ := bsearch_of_not_mem hk
    exact ⟨i, hb, NodeData.insert_miss v (by omega) hb⟩
  · intro v₁ v₂ hk
    obtain ⟨i, hb⟩ := bsearch_of_not_mem hk
    have hile : i ≤ nd.keys.length := bsearch_err_le hb
    have h1 := NodeData.insert_miss v₁ (by omega : nd.keys.length ≠ nd.capacity) hb
    have hok : bsearch (nd.keys.insertIdx i k) k = .ok i := bsearch_insertIdx_self hb
    have hv1 : (nd.values.insertIdx i v₁)[i]? = some v₁ :=
      getElem?_insertIdx_self (by omega)
    refine ⟨⟨nd.keys.insertIdx i k, nd.values.insertIdx i v₁,
        nd.children, nd.capacity⟩,
      ⟨nd.keys.insertIdx i k, (nd.values.insertIdx i v₁).set i v₂,
        nd.children, nd.capacity⟩, ?_, ?_, ?_, ?_, rfl⟩
    · exact h1
    · simp only [NodeData.getValue, hok, hv1]
    · simp only [NodeData.insert, hok, hv1]
    · have hlt : i < (nd.values.insertIdx i v₁).length := by
        rw [List.length_insertIdx _ _ (by omega)]
        omega
      simp only [NodeData.getValue, hok, List.getElem?_set_self hlt]

/-- C4 witness: inserting key 2 twice (values 100 then 200) into the node
with keys 1 and 3 behaves as stated. -/
theorem nodedata_insert_semantics_witness :
    (∀ v : Int, (2 : Int) ∈ (NodeData.mk [1, 3] [10, 30] none 5 :
        NodeData Int Int).keys → ∃ i old,
        (NodeData.mk [1, 3] [10, 30] none 5 : NodeData Int Int).keys[i]? = some 2 ∧
        (NodeData.mk [1, 3] [10, 30] none 5 : NodeData Int Int).values[i]? = some old ∧
        (NodeData.mk [1, 3] [10, 30] none 5 : NodeData Int Int).insert 2 v =
          some (some old, { NodeData.mk [1, 3] [10, 30] none 5 with
            values := ([10, 30] : List Int).set i v })) ∧
    (∀ v : Int, (2 : Int) ∉ (NodeData.mk [1, 3] [10, 30] none 5 :
        NodeData Int Int).keys → ∃ i,
        bsearch ([1, 3] : List Int) 2 = .error i ∧
        (NodeData.mk [1, 3] [10, 30] none 5 : NodeData Int Int).insert 2 v =
          some (none, { NodeData.mk [1, 3] [10, 30] none 5 with
            keys := ([1, 3] : List Int).insertIdx i 2,
            values := ([10, 30] : List Int).insertIdx i v })) ∧
    (∀ v₁ v₂ : Int, (2 : Int) ∉ (NodeData.mk [1, 3] [10, 30] none 5 :
        NodeData Int Int).keys → ∃ nd₁ nd₂ : NodeData Int Int,
        (NodeData.mk [1, 3] [10, 30] none 5 : NodeData Int Int).insert 2 v₁ =
          some (none, nd₁) ∧
        nd₁.getValue 2 = some v₁ ∧
        nd₁.insert 2 v₂ = some (some v₁, nd₂) ∧
        nd₂.getValue 2 = some v₂ ∧ nd₂.keys = nd₁.keys) :=
  nodedata_insert_semantics (NodeData.mk [1, 3] [10, 30] none 5) 2
    (by decide) (by decide) (by decide)

/-- C8: calling `insert` with a fresh key on a node already at capacity
panics rather than returning an error; with an already-present key it
succeeds even at capacity; and under the precondition that the node is not
full or the key is present, the panic branch is unreachable. -/
theorem nodedata_insert_full_panics {K V : Type} [LinearOrder K]
    (nd : NodeData K V) (k : K) (v : V)
    (hs : nd.keys.Sorted (· < ·)) (hlen : nd.values.length = nd.keys.length) :
    (nd.keys.length = nd.capacity → k ∉ nd.keys → nd.insert k v = none) ∧
    (k ∈ nd.keys → ∃ old nd', nd.insert k v = some (some old, nd')) ∧
    (nd.keys.length ≠ nd.capacity ∨ k ∈ nd.keys → nd.insert k v ≠ none) := by
  refine ⟨?_, ?_, ?_⟩
  · intro hful hk
    obtain ⟨i, hb⟩ := bsearch_of_not_mem hk
    have hf : nd.is_full = true := by
      simp only [NodeData.is_full, beq_iff_eq]
      exact hful
    simp only [NodeData.insert, hb]
    rw [if_pos hf]
  · intro hk
    obtain ⟨i, hb⟩ := bsearch_ok_of_mem hs hk
    obtain ⟨old, -, he⟩ := NodeData.insert_hit v hlen hb
    exact ⟨old, _, he⟩
  · intro h
    cases hb : bsearch nd.keys k with
    | ok i =>
      obtain ⟨old, -, he⟩ := NodeData.insert_hit v hlen hb
      rw [he]
      exact Option.some_ne_none _
    | error i =>
      rcases h with hne | hmem
      · rw [NodeData.insert_miss v hne hb]
        exact Option.some_ne_none _
      · obtain ⟨j, hb2⟩ := bsearch_ok_of_mem hs hmem
        rw [hb2] at hb
        exact absurd hb (by simp)

/-- C8 witness: on the full capacity-5 node, inserting fresh key 6 panics,
while re-inserting present key 3 succeeds. -/
theorem nodedata_insert_full_panics_witness :
    ((NodeData.mk [1, 2, 3, 4, 5] [10, 20, 30, 40, 50] none 5 :
        NodeData Int Int).insert 6 60 = none) ∧
    (∃ old nd', (NodeData.mk [1, 2, 3, 4, 5] [10, 20, 30, 40, 50] none 5 :
        NodeData Int Int).insert 3 99 = some (some old, nd')) := by
  have h6 := nodedata_insert_full_panics
    (NodeData.mk [1, 2, 3, 4, 5] [10, 20, 30, 40, 50] none 5) (6 : Int) (60 : Int)
    (by decide) (by decide)
  have h3 := nodedata_insert_full_panics
    (NodeData.mk [1, 2, 3, 4, 5] [10, 20, 30, 40, 50] none 5) (3 : Int) (99 : Int)
    (by decide) (by decide)
  exact ⟨h6.1 (by decide) (by decide), h3.2.1 (by decide)⟩

/-- Embeds the private error enum `NodeError` of the crate. -/
inductive NodeError where
  | io
  | serialization
  | deserialization
deriving DecidableEq, Repr

/-- Embeds the public error enum `Error` of the crate: I/O, serialization, or
a wrapped node error. It has no NeedsSplit variant, so a NeedsSplit signal
cannot cross the public API. -/
inductive Error where
  | io
  | serialization
  | node (e : NodeError)
deriving DecidableEq, Repr

/-- The internal-only overflow signal raised by `insert_if_space`. -/
inductive NeedsSplit where
  | needsSplit
deriving DecidableEq, Repr

namespace NodeData

variable {K V : Type} [LinearOrder K]

/-- Modelled from the spec: `insert_if_space` is absent from `src/src/lib.rs`
(only the panicking `insert` exists there); spec §4.1 defines it as the safe
variant used at the tree's insertion boundary — update in place on exact
match; insert on a capacity-respecting miss; on a capacity-exceeding miss
fail with NeedsSplit and perform no mutation. The pair returned is
(the possibly mutated node, the `Result<(), NeedsSplit>`). -/
def insert_if_space (nd : NodeData K V) (key : K) (value : V) :
    NodeData K V × Except NeedsSplit Unit :=
  match bsearch nd.keys key with
  | .ok idx => ({ nd with values := nd.values.set idx value }, .ok ())
  | .error idx =>
    if nd.is_full then (nd, .error .needsSplit)
    else ({ nd with keys := nd.keys.insertIdx idx key,
                    values := nd.values.insertIdx idx value }, .ok ())

end NodeData

/-- C6: `insert_if_space` updates in place on an exact match, inserts on a
miss when capacity allows, and on a miss against a full node returns the
NeedsSplit error with the node completely unmutated. -/
theorem nodedata_insert_if_space_spec {K V : Type} [LinearOrder K]
    (nd : NodeData K V) (k : K) (v : V) (hs : nd.keys.Sorted (· < ·)) :
    (nd.keys.length = nd.capacity → k ∉ nd.keys →
      nd.insert_if_space k v = (nd, .error .needsSplit)) ∧
    (nd.keys.length ≠ nd.capacity → k ∉ nd.keys → ∃ i,
      bsearch nd.keys k = .error i ∧
      nd.insert_if_space k v = (⟨nd.keys.insertIdx i k,
        nd.values.insertIdx i v, nd.children, nd.capacity⟩, .ok ())) ∧
    (k ∈ nd.keys → ∃ i, nd.keys[i]? = some k ∧
      nd.insert_if_space k v = (⟨nd.keys,
        nd.values.set i v, nd.children, nd.capacity⟩, .ok ())) := by
  refine ⟨?_, ?_, ?_⟩
  · intro hful hk
    obtain ⟨i, hb⟩ := bsearch_of_not_mem hk
    have hf : nd.is_full = true := by
      simp only [NodeData.is_full, beq_iff_eq]
      exact hful
    simp only [NodeData.insert_if_space, hb]
    rw [if_pos hf]
  · intro hful hk
    obtain ⟨i, hb⟩ := bsearch_of_not_mem hk
    have hf : ¬nd.is_full = true := by
      simp only [NodeData.is_full, beq_iff_eq]
      exact hful
    refine ⟨i, hb, ?_⟩
    simp only [NodeData.insert_if_space, hb]
    rw [if_neg hf]
  · intro hk
    obtain ⟨i, hb⟩ := bsearch_ok_of_mem hs hk
    exact ⟨i, bsearch_ok_get hb, by simp only [NodeData.insert_if_space, hb]⟩

/-- C6 witness: on the full capacity-5 node a miss returns NeedsSplit and
leaves the node untouched; a hit on key 3 succeeds even though it is full. -/
theorem nodedata_insert_if_space_spec_witness :
    ((NodeData.mk [1, 2, 3, 4, 5] [10, 20, 30, 40, 50] none 5 :
        NodeData Int Int).insert_if_space 6 60 =
      (NodeData.mk [1, 2, 3, 4, 5] [10, 20, 30, 40, 50] none 5,
        .error .needsSplit)) ∧
    (∃ i, (([1, 2, 3, 4, 5] : List Int))[i]? = some 3 ∧
      (NodeData.mk [1, 2, 3, 4, 5] [10, 20, 30, 40, 50] none 5 :
          NodeData Int Int).insert_if_space 3 99 =
        (⟨[1, 2, 3, 4, 5], ([10, 20, 30, 40, 50] : List Int).set i 99,
          none, 5⟩, .ok ())) := by
  have h6 := nodedata_insert_if_space_spec
    (NodeData.mk [1, 2, 3, 4, 5] [10, 20, 30, 40, 50] none 5) (6 : Int)
    (60 : Int) (by decide)
  have h3 := nodedata_insert_if_space_spec
    (NodeData.mk [1, 2, 3, 4, 5] [10, 20, 30, 40, 50] none 5) (3 : Int)
    (99 : Int) (by decide)
  exact ⟨h6.1 (by decide) (by decide), h3.2.2 (by decide)⟩

/-- Embeds `BTree::new(backing_dir, capacity)`: create the backing directory
(an I/O error if it already exists, reported through the `Result`), then
`Node::new(dir.join("root"), capacity)`, which runs `NodeData::new(capacity)`
— whose failed assertion is a panic (`none`), bypassing the declared
`Result`. The filesystem is abstracted to whether the directory pre-exists;
the tree state returned is its root node's data. -/
def BTree.new {K V : Type} (dirExists : Bool) (capacity : Nat) :
    Option (Except Error (NodeData K V)) :=
  if dirExists then some (.error .io)
  else
    match (NodeData.new capacity : Option (NodeData K V)) with
    | none => none
    | some root => some (.ok root)

/-- C9: any capacity that is even or at most 3 makes `NodeData::new` — and
therefore `BTree::new` over a fresh directory — panic on its assertion
(`none`) instead of returning through the declared error type. -/
theorem btree_new_asserts_not_errs (capacity : Nat)
    (h : capacity % 2 = 0 ∨ capacity ≤ 3) :
    (NodeData.new capacity : Option (NodeData Int Int)) = none ∧
    BTree.new (K := Int) (V := Int) false capacity = none := by
  have hn : (NodeData.new capacity : Option (NodeData Int Int)) = none := by
    unfold NodeData.new
    rw [if_neg]
    rintro ⟨h1, h2⟩
    rcases h with h | h <;> omega
  refine ⟨hn, ?_⟩
  simp only [BTree.new, Bool.false_eq_true, if_false, hn]

/-- C9 witness: capacity 4 (even) panics in both constructors. -/
theorem btree_new_asserts_not_errs_witness :
    (NodeData.new 4 : Option (NodeData Int Int)) = none ∧
    BTree.new (K := Int) (V := Int) false 4 = none :=
  btree_new_asserts_not_errs 4 (Or.inl (by decide))

/-- Embeds the root-split block at the top of `BTree::insert` (the code
before the `todo!()`): read the root's capacity, split the full root (sibling
bound to `right`), rename the demoted root to a fresh ref, create a
brand-new root node at the fixed "root" path, and insert the median into it
via `Node::insert`. Returns the triple (new root data, demoted old root
data, sibling data) — what the block leaves in `self.root_node`, in the
renamed file, and in the `right` binding that the block then drops without
using. -/
def rootSplitBlock {K V : Type} [LinearOrder K] (root : NodeData K V) :
    Option (NodeData K V × NodeData K V × NodeData K V) :=
  match root.split with
  | none => none
  | some (k, v, demoted, sibling) =>
    match (NodeData.new root.capacity : Option (NodeData K V)) with
    | none => none
    | some fresh =>
      match fresh.insert k v with
      | none => none
      | some (_, newRoot) => some (newRoot, demoted, sibling)

/-- Token-level model of the self-describing binary persistence codec
(`rmp_serde` / MessagePack in the source): an integer is one token, encoded
sign-and-magnitude into a natural number. -/
def encInt (n : Int) : Nat :=
  if 0 ≤ n then 2 * n.toNat else 2 * (-n).toNat - 1

/-- Decoder for `encInt`. -/
def decInt (m : Nat) : Int :=
  if m % 2 = 0 then ((m / 2 : Nat) : Int) else -(((m + 1) / 2 : Nat) : Int)

/-- The integer codec round-trips. -/
theorem decInt_encInt (n : Int) : decInt (encInt n) = n := by
  unfold encInt decInt
  by_cases h : 0 ≤ n
  · rw [if_pos h, if_pos (Nat.mul_mod_right 2 _)]
    have h3 : 2 * n.toNat / 2 = n.toNat := by omega
    rw [h3, Int.toNat_of_nonneg h]
  · rw [if_neg h]
    have hcast : (((-n).toNat : Nat) : Int) = -n := Int.toNat_of_nonneg (by omega)
    have ha : 1 ≤ (-n).toNat := by omega
    rw [if_neg (by omega : ¬(2 * (-n).toNat - 1) % 2 = 0)]
    have h4 : (2 * (-n).toNat - 1 + 1) / 2 = (-n).toNat := by omega
    rw [h4]
    omega

/-- Reads exactly `n` tokens from the stream, returning them and the rest. -/
def readN : Nat → List Nat → Option (List Nat × List Nat)
  | 0, ts => some ([], ts)
  | _ + 1, [] => none
  | n + 1, t :: ts =>
    match readN n ts with
    | none => none
    | some (xs, rest) => some (t :: xs, rest)

/-- Serializes a `NodeData<Int, Int>` as the self-describing record the
persistence codec writes: length-prefixed keys, length-prefixed values, and
a tagged optional length-prefixed child list (`0` encodes a leaf). -/
def encodeNodeData (nd : NodeData Int Int) : List Nat :=
  nd.keys.length ::
    (nd.keys.map encInt ++
      (nd.values.length ::
        (nd.values.map encInt ++
          (match nd.children with
           | none => [0]
           | some cs => 1 :: cs.length :: cs))))

/-- Deserializes one full `NodeData` record: the (keys, values, children)
triple, or `none` when the bytes do not conform to the format. -/
def decodeNodeData (ts : List Nat) :
    Option (List Int × List Int × Option (List NodeRef)) :=
  match ts with
  | [] => none
  | nk :: rest =>
    match readN nk rest with
    | none => none
    | some (keyToks, rest1) =>
      match rest1 with
      | [] => none
      | nv :: rest2 =>
        match readN nv rest2 with
        | none => none
        | some (valToks, rest3) =>
          match rest3 with
          | [0] => some (keyToks.map decInt, valToks.map decInt, none)
          | 1 :: nc :: rest4 =>
            match readN nc rest4 with
            | some (cs, []) => some (keyToks.map decInt, valToks.map decInt, some cs)
            | _ => none
          | _ => none

/-- Reading back exactly the tokens just written leaves the rest intact. -/
theorem readN_append (xs rest : List Nat) :
    readN xs.length (xs ++ rest) = some (xs, rest) := by
  induction xs with
  | nil => rfl
  | cons x xs ih => simp [readN, ih]

/-- Same, stated for a mapped token list. -/
theorem readN_map_append (f : Int → Nat) (l : List Int) (rest : List Nat) :
    readN l.length (l.map f ++ rest) = some (l.map f, rest) := by
  have h := readN_append (l.map f) rest
  rwa [List.length_map] at h

/-- Mapping the decoder over encoded tokens restores the original list. -/
theorem map_decInt_encInt (l : List Int) : (l.map encInt).map decInt = l := by
  rw [List.map_map]
  calc l.map (decInt ∘ encInt) = l.map id :=
        List.map_congr_left (fun a _ => decInt_encInt a)
    _ = l := List.map_id l

/-- Composed form of the previous lemma. -/
theorem map_comp_decInt_encInt (l : List Int) : l.map (decInt ∘ encInt) = l := by
  rw [← List.map_map]
  exact map_decInt_encInt l

/-- The record codec round-trips on every `NodeData`. -/
theorem decode_encode (nd : NodeData Int Int) :
    decodeNodeData (encodeNodeData nd) = some (nd.keys, nd.values, nd.children) := by
  cases hc : nd.children with
  | none =>
    simp only [encodeNodeData, hc, decodeNodeData]
    rw [readN_map_append encInt nd.keys
      (nd.values.length :: (nd.values.map encInt ++ [0]))]
    simp only
    rw [readN_map_append encInt nd.values [0]]
    simp [map_decInt_encInt, map_comp_decInt_encInt]
  | some cs =>
    simp only [encodeNodeData, hc, decodeNodeData]
    rw [readN_map_append encInt nd.keys
      (nd.values.length :: (nd.values.map encInt ++ (1 :: cs.length :: cs)))]
    simp only
    rw [readN_map_append encInt nd.values (1 :: cs.length :: cs)]
    have hcs : readN cs.length cs = some (cs, []) := by
      have h := readN_append cs []
      rwa [List.append_nil] at h
    simp only [hcs]
    simp [map_decInt_encInt, map_comp_decInt_encInt]

/-- The backing directory, modelled as a map from node refs to file contents
(token streams); `none` is an absent file. -/
abbrev FileSys := NodeRef → Option (List Nat)

namespace Node

/-- Embeds `Node::save`: `set_len(0)` plus `rewind` leave the open file
empty, then the entire current `NodeData` is serialized into it — a full
rewrite regardless of the previous content. -/
def save (fs : FileSys) (p : NodeRef) (nd : NodeData Int Int) : FileSys :=
  Function.update fs p (some ([] ++ encodeNodeData nd))

/-- Embeds `Node::load`: open the file at the path (failing if absent) and
deserialize one full `NodeData` record from it. -/
def load (fs : FileSys) (p : NodeRef) :
    Option (List Int × List Int × Option (List NodeRef)) :=
  match fs p with
  | none => none
  | some c => decodeNodeData c

end Node

/-- C5: `save` followed by `load` from the same path reproduces a `NodeData`
with identical keys, values and children; and the save is a full rewrite —
the stored content is exactly the freshly encoded record, independent of
whatever the file held before. -/
theorem node_save_load_roundtrip (fs : FileSys) (p : NodeRef)
    (nd : NodeData Int Int) :
    Node.load (Node.save fs p nd) p = some (nd.keys, nd.values, nd.children) ∧
    Node.save fs p nd p = some (encodeNodeData nd) := by
  constructor
  · simp only [Node.load, Node.save, Function.update_same, List.nil_append]
    exact decode_encode nd
  · simp only [Node.save, Function.update_same, List.nil_append]

/-- Embeds `BTree::insert` in full: when the root is full, run the
preemptive root-split block (see `rootSplitBlock`; any panic inside it
propagates), and in every case the function then reaches the `todo!()`
placeholder that ends its body — a panic. The tree state is abstracted to
the root's data; the key/value parameters are unused because no path reaches
a return. -/
def BTree.insert {K V : Type} [LinearOrder K] (root : NodeData K V)
    (_key : K) (_value : V) : Option (Except Error (Option V) × NodeData K V) :=
  if root.is_full then
    match rootSplitBlock root with
    | none => none
    | some _ => none
  else none

